import Mathlib

/-
Verification of the replicated-document engine specification of automerge-py.
The Python package re-exports a compiled backend; the engine itself is
modelled here from the specification, and the pure-Python `dump` helper is
embedded directly from the source.
-/

namespace AM

/-- Modelled from the spec: operation identifier, a pair of a per-actor
sequence counter and an actor id (spec section 3, OpId); the backend holding
the real type is not part of the Python sources. -/
structure OpId where
  ctr : Nat
  actor : Nat
deriving DecidableEq

/-- Injective Nat code of an OpId, used for causal-past membership tests. -/
def OpId.key (i : OpId) : Nat := Nat.pair i.ctr i.actor

/-- Modelled from the spec: the OpId total order, by (counter, actor-tiebreak)
(spec section 3). -/
def opIdLe (i j : OpId) : Prop :=
  i.ctr < j.ctr ∨ (i.ctr = j.ctr ∧ i.actor ≤ j.actor)

instance : DecidableRel opIdLe := fun i j => by
  unfold opIdLe; exact inferInstance

/-- Modelled from the spec: a value is a primitive scalar or a reference
creating a nested object (map, list, or counter with its initial value). -/
inductive Val
  | intV (n : Int)
  | strV (s : String)
  | boolV (b : Bool)
  | nullV
  | newMap
  | newList
  | newCounter (init : Int)
deriving DecidableEq

/-- Modelled from the spec: an object in the tree is the root map or the
object created by the operation with the given OpId. -/
inductive ObjId
  | root
  | node (i : OpId)
deriving DecidableEq

/-- Modelled from the spec: the operation vocabulary
set / delete / insert / increment of spec section 3. -/
inductive RawOp
  | setKey (obj : ObjId) (key : String) (v : Val)
  | delKey (obj : ObjId) (key : String)
  | insertAfter (obj : ObjId) (ref : Option OpId) (v : Val)
  | delElem (obj : ObjId) (elem : OpId)
  | incr (obj : ObjId) (delta : Int)
deriving DecidableEq

/-- Modelled from the spec: a Change is an ordered batch of operations from
one actor with its start sequence number and the hashes of the causally
preceding Changes (spec section 3). -/
structure Change where
  actor : Nat
  startSeq : Nat
  deps : List Nat
  ops : List RawOp
deriving DecidableEq

/-- Token encoding of an integer. -/
def encInt : Int → List Nat
  | Int.ofNat n => [0, n]
  | Int.negSucc n => [1, n]

/-- Token encoding of a string: length followed by character codes. -/
def encStr (s : String) : List Nat :=
  s.data.length :: s.data.map Char.toNat

/-- Token encoding of a value. -/
def encVal : Val → List Nat
  | Val.intV n => 0 :: encInt n
  | Val.strV s => 1 :: encStr s
  | Val.boolV b => [2, cond b 1 0]
  | Val.nullV => [3]
  | Val.newMap => [4]
  | Val.newList => [5]
  | Val.newCounter i => 6 :: encInt i

/-- Token encoding of an object id. -/
def encObj : ObjId → List Nat
  | ObjId.root => [0]
  | ObjId.node i => [1, i.ctr, i.actor]

/-- Token encoding of an optional element reference. -/
def encRef : Option OpId → List Nat
  | none => [0]
  | some i => [1, i.ctr, i.actor]

/-- Token encoding of an operation. -/
def encOp : RawOp → List Nat
  | RawOp.setKey o k v => 0 :: (encObj o ++ encStr k ++ encVal v)
  | RawOp.delKey o k => 1 :: (encObj o ++ encStr k)
  | RawOp.insertAfter o r v => 2 :: (encObj o ++ encRef r ++ encVal v)
  | RawOp.delElem o e => 3 :: (encObj o ++ [e.ctr, e.actor])
  | RawOp.incr o d => 4 :: (encObj o ++ encInt d)

/-- Token encoding of a list given an element encoder. -/
def encListOf (enc : α → List Nat) (l : List α) : List Nat :=
  l.length :: l.flatMap enc

/-- Compact encoding of a Change (spec section 4.7): actor id, start
sequence, dependency hashes, operation count, operation stream. -/
def encChange (c : Change) : List Nat :=
  c.actor :: c.startSeq :: (encListOf (fun n => [n]) c.deps ++ encListOf encOp c.ops)

/-- Modelled from the spec: content hash of a Change, used for dependency
referencing and deduplication (spec section 3). -/
def hashChange (c : Change) : Nat :=
  (encChange c).foldl (fun a n => (a * 31 + n) % 18446744073709551616) 7

/-- Modelled from the spec: an operation tagged with its OpId and with the
keys of every operation in its causal past; materialization consumes these. -/
structure TOp where
  id : OpId
  op : RawOp
  past : List Nat
deriving DecidableEq

/-- Canonical form of a list of past keys: duplicates removed, sorted. -/
def canonKeys (l : List Nat) : List Nat :=
  List.insertionSort (· ≤ ·) l.dedup

/-- OpIds of the operations contained in one Change. -/
def changeOpIds (c : Change) : List OpId :=
  (List.range c.ops.length).map (fun j => ⟨c.startSeq + j, c.actor⟩)

/-- Modelled from the spec: the transitive dependency closure of a frontier
of Change hashes inside a history, computed with fuel. -/
def depClosure (D : List Change) : Nat → List Nat → List Change
  | 0, _ => []
  | f + 1, hs =>
    let cs := D.filter (fun c => decide (hashChange c ∈ hs))
    cs ++ depClosure D f (cs.flatMap Change.deps)

/-- Keys of all operations causally preceding a whole Change. -/
def changePastKeys (D : List Change) (c : Change) : List Nat :=
  (depClosure D D.length c.deps).flatMap (fun d => (changeOpIds d).map OpId.key)

/-- Tagged operations of one Change relative to an ambient history: each
operation gets its OpId and the canonical keys of its causal past (the ops of
all dependency-closure Changes plus the earlier ops of the same Change). -/
def changeTOps (D : List Change) (c : Change) : List TOp :=
  (List.range c.ops.length).map (fun j =>
    { id := ⟨c.startSeq + j, c.actor⟩
      op := c.ops.getD j (RawOp.delKey ObjId.root "")
      past := canonKeys (changePastKeys D c ++
        (List.range j).map (fun k => OpId.key ⟨c.startSeq + k, c.actor⟩)) })

/-- Tagged operations of a whole history (deduplicated change set). -/
def taggedOps (H : List Change) : List TOp :=
  H.dedup.flatMap (changeTOps H.dedup)

/-- Sort order on tagged operations: by OpId. -/
def tle (a b : TOp) : Prop := opIdLe a.id b.id

instance : DecidableRel tle := fun a b => by
  unfold tle; exact inferInstance

/-- Strict companion of the sort order, used for canonical uniqueness. -/
def tlt (a b : TOp) : Prop := opIdLe a.id b.id ∧ a.id ≠ b.id

/-- Canonical operation list of a history: tagged operations of the
deduplicated change set, sorted by OpId. -/
def canonOps (H : List Change) : List TOp :=
  List.insertionSort tle (taggedOps H)

/-- Value carried by an operation, when it carries one. -/
def opVal : RawOp → Option Val
  | RawOp.setKey _ _ v => some v
  | RawOp.insertAfter _ _ v => some v
  | _ => none

/-- Test for a set operation on a given map key. -/
def isSetAt (o : ObjId) (k : String) (t : TOp) : Bool :=
  match t.op with
  | RawOp.setKey o' k' _ => decide (o' = o) && decide (k' = k)
  | _ => false

/-- Test for a set or delete operation on a given map key. -/
def isKeyOpAt (o : ObjId) (k : String) (t : TOp) : Bool :=
  match t.op with
  | RawOp.setKey o' k' _ => decide (o' = o) && decide (k' = k)
  | RawOp.delKey o' k' => decide (o' = o) && decide (k' = k)
  | _ => false

/-- Modelled from the spec: a map operation is shadowed when some operation
on the same key causally succeeds it (spec section 4.3). -/
def shadowedAt (avail : List TOp) (o : ObjId) (k : String) (t : TOp) : Bool :=
  (avail.filter (isKeyOpAt o k)).any (fun y => decide (t.id.key ∈ y.past))

/-- Modelled from the spec: the surviving concurrent set operations of a map
key, listed in descending OpId order so the head is the default read value
(spec section 4.3). -/
def conflictAt (avail : List TOp) (o : ObjId) (k : String) : List TOp :=
  ((avail.filter (isSetAt o k)).filter (fun t => ! shadowedAt avail o k t)).reverse

/-- Key written by a set operation on the given object, if any. -/
def keyOf (o : ObjId) (t : TOp) : Option String :=
  match t.op with
  | RawOp.setKey o' k _ => if o' = o then some k else none
  | _ => none

/-- Visible keys of a map object, in first-write order. -/
def mapKeysAt (avail : List TOp) (o : ObjId) : List String :=
  ((avail.filterMap (keyOf o)).dedup).filter (fun k => ! (conflictAt avail o k).isEmpty)

/-- Test for an insert operation into a given sequence object. -/
def isInsAt (o : ObjId) (t : TOp) : Bool :=
  match t.op with
  | RawOp.insertAfter o' _ _ => decide (o' = o)
  | _ => false

/-- Reference element of an insert operation. -/
def insRef (t : TOp) : Option OpId :=
  match t.op with
  | RawOp.insertAfter _ r _ => r
  | _ => none

/-- Modelled from the spec: concurrent insertions after the same reference
are ordered by descending OpId (spec section 4.4); the element list is kept
ascending, so children are its filtered reverse. -/
def childrenOf (elems : List TOp) (r : Option OpId) : List TOp :=
  (elems.filter (fun t => decide (insRef t = r))).reverse

/-- Modelled from the spec: depth-first walk of the insertion forest giving
the full element order, tombstones included (spec section 4.4). -/
def dfsSeq : Nat → List TOp → Option OpId → List TOp
  | 0, _, _ => []
  | f + 1, elems, r =>
    (childrenOf elems r).flatMap (fun c => c :: dfsSeq f elems (some c.id))

/-- Modelled from the spec: a sequence element is tombstoned when a delete
operation targets it; it is hidden, never removed (spec section 4.3). -/
def tombstonedIn (avail : List TOp) (o : ObjId) (e : OpId) : Bool :=
  avail.any (fun y => match y.op with
    | RawOp.delElem o' e' => decide (o' = o) && decide (e' = e)
    | _ => false)

/-- Full ordered element list of a sequence object, tombstones included. -/
def seqElemsAt (avail : List TOp) (o : ObjId) : List TOp :=
  dfsSeq ((avail.filter (isInsAt o)).length + 1) (avail.filter (isInsAt o)) none

/-- Visible (live) elements of a sequence object, in document order. -/
def visibleSeqOps (avail : List TOp) (o : ObjId) : List TOp :=
  (seqElemsAt avail o).filter (fun e => ! tombstonedIn avail o e.id)

/-- OpIds of the visible elements of a sequence object, in document order. -/
def visibleElemIds (avail : List TOp) (o : ObjId) : List OpId :=
  (visibleSeqOps avail o).map TOp.id

/-- Delta contributed by an increment operation on a given counter object. -/
def rawIncDelta (o : ObjId) : RawOp → Option Int
  | RawOp.incr o' d => if o' = o then some d else none
  | _ => none

/-- Delta contributed by a tagged increment operation. -/
def incDelta (o : ObjId) (t : TOp) : Option Int :=
  rawIncDelta o t.op

/-- Modelled from the spec: a counter's value is its initial value plus the
sum of all increment deltas in the causal history (spec section 4.5). -/
def counterVal (avail : List TOp) (o : ObjId) (init : Int) : Int :=
  init + (avail.filterMap (incDelta o)).sum

/-- Materialized view of the document: a tree of maps (with per-key conflict
lists in descending OpId order, head first as default), sequences, counters
and scalar leaves. -/
inductive MNode
  | leafI (n : Int)
  | leafS (s : String)
  | leafB (b : Bool)
  | leafN
  | mapN (entries : List (String × List (OpId × MNode)))
  | listN (elems : List MNode)
  | counterN (value : Int)

/-- Modelled from the spec: materialize one object of the tree from the
canonical operation list (spec section 4.3); the fuel bounds nesting depth.
The value written by one operation materializes inline: scalars become
leaves, object-creating values recurse into the created object, a counter
value sums its deltas. -/
def matObj : Nat → List TOp → ObjId → Bool → MNode
  | 0, _, _, _ => MNode.leafN
  | Nat.succ f, avail, o, true =>
    MNode.mapN ((mapKeysAt avail o).map (fun k =>
      (k, (conflictAt avail o k).map (fun t => (t.id,
        match opVal t.op with
        | some (Val.intV n) => MNode.leafI n
        | some (Val.strV s) => MNode.leafS s
        | some (Val.boolV b) => MNode.leafB b
        | some Val.nullV => MNode.leafN
        | some Val.newMap => matObj f (avail.erase t) (ObjId.node t.id) true
        | some Val.newList => matObj f (avail.erase t) (ObjId.node t.id) false
        | some (Val.newCounter i) =>
          MNode.counterN (counterVal avail (ObjId.node t.id) i)
        | none => MNode.leafN)))))
  | Nat.succ f, avail, o, false =>
    MNode.listN ((visibleSeqOps avail o).map (fun t =>
      match opVal t.op with
      | some (Val.intV n) => MNode.leafI n
      | some (Val.strV s) => MNode.leafS s
      | some (Val.boolV b) => MNode.leafB b
      | some Val.nullV => MNode.leafN
      | some Val.newMap => matObj f (avail.erase t) (ObjId.node t.id) true
      | some Val.newList => matObj f (avail.erase t) (ObjId.node t.id) false
      | some (Val.newCounter i) =>
        MNode.counterN (counterVal avail (ObjId.node t.id) i)
      | none => MNode.leafN))

/-- Modelled from the spec: the visible tree of a causal history, the root
being a map object (spec section 4.3). -/
def treeOfHist (H : List Change) : MNode :=
  matObj ((canonOps H).length + 1) (canonOps H) ObjId.root true

/-- Modelled from the spec: a Document is the causal set of applied Changes
plus the local actor's identity, its next operation counter, and the buffer
of Changes whose dependencies have not arrived yet (spec sections 3 and 4.6). -/
structure Doc where
  actor : Nat
  ctr : Nat
  hist : List Change
  buffer : List Change
deriving DecidableEq

/-- Modelled from the spec: a new empty Document with a fresh ActorId; the
per-actor counter starts at 1 (spec sections 4.1 and 6). -/
def initDoc (a : Nat) : Doc := ⟨a, 1, [], []⟩

/-- Modelled from the spec: fork gives an independent copy with an identical
causal history snapshot and a fresh non-colliding ActorId (spec section 6). -/
def forkDoc (d : Doc) (a : Nat) : Doc := ⟨a, 1, d.hist, d.buffer⟩

/-- Modelled from the spec: the visible tree a Document materializes. -/
def visibleTree (d : Doc) : MNode := treeOfHist d.hist

/-- Modelled from the spec: merge mutates the destination to include the
source's history; the tree is re-materialized from the unioned log
(spec section 4.6). -/
def mergeDoc (dst src : Doc) : Doc :=
  { dst with hist := dst.hist ++ src.hist }

/-- Modelled from the spec: dependency check of a Change against a history;
every dependency hash must belong to an already-present Change
(spec section 4.6). -/
def depsMetB (H : List Change) (c : Change) : Bool :=
  c.deps.all (fun h => H.any (fun c' => hashChange c' = h))

/-- Modelled from the spec: admission rounds; each round admits every pending
Change whose dependencies are met and stops when none is
(spec section 4.6). -/
def admitLoop : Nat → List Change → List Change → List Change × List Change
  | 0, H, pend => (H, pend)
  | f + 1, H, pend =>
    let ready := pend.filter (depsMetB H)
    if ready.isEmpty then (H, pend)
    else admitLoop f (H ++ ready) (pend.filter (fun c => ! depsMetB H c))

/-- Modelled from the spec: apply possibly out-of-order Changes, buffering
the ones with unmet dependencies until their dependencies arrive
(spec sections 4.6 and 6). -/
def applyChanges (d : Doc) (cs : List Change) : Doc :=
  let r := admitLoop ((d.buffer ++ cs).length + 1) d.hist (d.buffer ++ cs)
  { d with hist := r.1, buffer := r.2 }

/-- Kinds of objects an edit may target. -/
inductive ObjKind
  | mapK
  | listK
  | counterK
deriving DecidableEq

/-- Kind of the object a value creates, if it creates one. -/
def valKind : Val → Option ObjKind
  | Val.newMap => some ObjKind.mapK
  | Val.newList => some ObjKind.listK
  | Val.newCounter _ => some ObjKind.counterK
  | _ => none

/-- Value written by the operation that created a given object, if any. -/
def findCreator (avail : List TOp) (i : OpId) : Option Val :=
  avail.findSome? (fun t => if t.id = i then opVal t.op else none)

/-- Modelled from the spec: kind lookup for an edit target; the root is a
map, other objects have the kind their creating value declares
(spec section 4.2). -/
def objKind (avail : List TOp) : ObjId → Option ObjKind
  | ObjId.root => some ObjKind.mapK
  | ObjId.node i => (findCreator avail i).bind valKind

/-- Modelled from the spec: the edits a Transaction buffers
(spec section 4.2); a splice replaces the half-open index range
from start to stop with new values. -/
inductive Edit
  | eSetKey (o : ObjId) (k : String) (v : Val)
  | eDelKey (o : ObjId) (k : String)
  | eSplice (o : ObjId) (start stop : Nat) (vals : List Val)
  | eIncr (o : ObjId) (delta : Int)
deriving DecidableEq

/-- Modelled from the spec: the error taxonomy relevant to Transactions
(spec section 7). -/
inductive TxErr
  | invalidTarget
deriving DecidableEq

/-- Modelled from the spec: an open Transaction holds the snapshot Document,
the first counter it allocates, and the buffered operations
(spec section 4.2). -/
structure TxState where
  base : Doc
  startSeq : Nat
  ops : List RawOp
deriving DecidableEq

/-- Begin a Transaction: snapshot the Document (spec section 4.2). -/
def txInit (d : Doc) : TxState := ⟨d, d.ctr, []⟩

/-- Dependency hashes a Change commits with: the hashes of all Changes
causally preceding it, per the Change description of spec section 3. -/
def depsOf (H : List Change) : List Nat := H.dedup.map hashChange

/-- The Change an open Transaction would commit right now. -/
def txChange (st : TxState) : Change :=
  ⟨st.base.actor, st.startSeq, depsOf st.base.hist, st.ops⟩

/-- Modelled from the spec: the in-progress view of an open Transaction,
so each edit observes the previous ones (spec section 4.2). -/
def txOps (st : TxState) : List TOp :=
  canonOps (st.base.hist ++ [txChange st])

/-- Next operation counter an open Transaction would allocate. -/
def txCtr (st : TxState) : Nat := st.startSeq + st.ops.length

/-- Modelled from the spec: chain of insert operations for new values, the
first anchored at the given reference and each next one anchored after the
previously inserted element (spec section 4.2). -/
def insChain (o : ObjId) (actor : Nat) : Nat → Option OpId → List Val → List RawOp
  | _, _, [] => []
  | c, r, v :: vs =>
    RawOp.insertAfter o r v :: insChain o actor (c + 1) (some ⟨c, actor⟩) vs

/-- Modelled from the spec: operations of one splice: tombstone every live
element in the range, then insert the new values anchored after the element
immediately preceding the start position, or at the head when the start is 0;
ranges beyond the live length are clamped (spec section 4.2). -/
def spliceOps (o : ObjId) (actor ctr : Nat) (vis : List OpId)
    (start stop : Nat) (vals : List Val) : List RawOp :=
  let dels := ((vis.drop start).take (stop - start)).map (RawOp.delElem o)
  dels ++ insChain o actor (ctr + dels.length) ((vis.take start).getLast?) vals

/-- Modelled from the spec: apply one edit inside a Transaction, failing with
InvalidTarget when the addressed object is missing or of the wrong kind
(spec section 4.2). -/
def applyEdit (st : TxState) : Edit → Except TxErr TxState
  | Edit.eSetKey o k v =>
    if objKind (txOps st) o = some ObjKind.mapK then
      Except.ok { st with ops := st.ops ++ [RawOp.setKey o k v] }
    else Except.error TxErr.invalidTarget
  | Edit.eDelKey o k =>
    if objKind (txOps st) o = some ObjKind.mapK then
      Except.ok { st with ops := st.ops ++ [RawOp.delKey o k] }
    else Except.error TxErr.invalidTarget
  | Edit.eSplice o start stop vals =>
    if objKind (txOps st) o = some ObjKind.listK then
      Except.ok { st with ops := st.ops ++
        (spliceOps o st.base.actor (txCtr st) (visibleElemIds (txOps st) o)
          start stop vals) }
    else Except.error TxErr.invalidTarget
  | Edit.eIncr o delta =>
    if objKind (txOps st) o = some ObjKind.counterK then
      Except.ok { st with ops := st.ops ++ [RawOp.incr o delta] }
    else Except.error TxErr.invalidTarget

/-- Run the edits of a Transaction in order, stopping at the first failure. -/
def runEdits (st : TxState) : List Edit → Except TxErr TxState
  | [] => Except.ok st
  | e :: es => (applyEdit st e).bind (fun st' => runEdits st' es)

/-- Modelled from the spec: commit packages the buffered operations into one
Change appended to the log; any failure discards every buffered operation and
leaves the Document exactly as before (spec section 4.2). -/
def commitTx (d : Doc) (edits : List Edit) : Doc :=
  match runEdits (txInit d) edits with
  | Except.ok st =>
    { d with ctr := txCtr st, hist := d.hist ++ [txChange st] }
  | Except.error _ => d

/-- Modelled from the spec: full serialization of a Document: header (actor,
counter) followed by the Change sets (spec section 4.7). -/
def encDoc (d : Doc) : List Nat :=
  d.actor :: d.ctr :: (encListOf encChange d.hist ++ encListOf encChange d.buffer)

/-- Modelled from the spec: save encodes the whole Document
(spec section 6). -/
def saveDoc (d : Doc) : List Nat := encDoc d

/-- Decoder for integers. -/
def decInt : List Nat → Option (Int × List Nat)
  | 0 :: n :: r => some (Int.ofNat n, r)
  | 1 :: n :: r => some (Int.negSucc n, r)
  | _ => none

/-- Decoder for a counted run of characters. -/
def decChars : Nat → List Nat → Option (List Char × List Nat)
  | 0, r => some ([], r)
  | k + 1, c :: r => (decChars k r).map (fun p => (Char.ofNat c :: p.1, p.2))
  | _ + 1, [] => none

/-- Decoder for strings. -/
def decStr : List Nat → Option (String × List Nat)
  | n :: r => (decChars n r).map (fun p => (String.mk p.1, p.2))
  | [] => none

/-- Decoder for values. -/
def decVal : List Nat → Option (Val × List Nat)
  | 0 :: r => (decInt r).map (fun p => (Val.intV p.1, p.2))
  | 1 :: r => (decStr r).map (fun p => (Val.strV p.1, p.2))
  | 2 :: b :: r => some (Val.boolV (b == 1), r)
  | 3 :: r => some (Val.nullV, r)
  | 4 :: r => some (Val.newMap, r)
  | 5 :: r => some (Val.newList, r)
  | 6 :: r => (decInt r).map (fun p => (Val.newCounter p.1, p.2))
  | _ => none

/-- Decoder for object ids. -/
def decObj : List Nat → Option (ObjId × List Nat)
  | 0 :: r => some (ObjId.root, r)
  | 1 :: c :: a :: r => some (ObjId.node ⟨c, a⟩, r)
  | _ => none

/-- Decoder for optional element references. -/
def decRef : List Nat → Option (Option OpId × List Nat)
  | 0 :: r => some (none, r)
  | 1 :: c :: a :: r => some (some ⟨c, a⟩, r)
  | _ => none

/-- Decoder for operations. -/
def decOp : List Nat → Option (RawOp × List Nat)
  | 0 :: r =>
    (decObj r).bind (fun p => (decStr p.2).bind (fun q =>
      (decVal q.2).map (fun w => (RawOp.setKey p.1 q.1 w.1, w.2))))
  | 1 :: r =>
    (decObj r).bind (fun p => (decStr p.2).map (fun q =>
      (RawOp.delKey p.1 q.1, q.2)))
  | 2 :: r =>
    (decObj r).bind (fun p => (decRef p.2).bind (fun q =>
      (decVal q.2).map (fun w => (RawOp.insertAfter p.1 q.1 w.1, w.2))))
  | 3 :: r =>
    (decObj r).bind (fun p => match p.2 with
      | c :: a :: r' => some (RawOp.delElem p.1 ⟨c, a⟩, r')
      | _ => none)
  | 4 :: r =>
    (decObj r).bind (fun p => (decInt p.2).map (fun q =>
      (RawOp.incr p.1 q.1, q.2)))
  | _ => none

/-- Decoder for a counted run of plain numbers. -/
def decNats : Nat → List Nat → Option (List Nat × List Nat)
  | 0, r => some ([], r)
  | k + 1, x :: r => (decNats k r).map (fun p => (x :: p.1, p.2))
  | _ + 1, [] => none

/-- Decoder for a counted run of elements. -/
def decListOf (dec : List Nat → Option (α × List Nat)) :
    Nat → List Nat → Option (List α × List Nat)
  | 0, r => some ([], r)
  | k + 1, r =>
    (dec r).bind (fun p => (decListOf dec k p.2).map (fun q => (p.1 :: q.1, q.2)))

/-- Decoder for Changes. -/
def decChange : List Nat → Option (Change × List Nat)
  | a :: s :: n :: r =>
    (decNats n r).bind (fun p => match p.2 with
      | m :: r2 => (decListOf decOp m r2).map (fun q => (⟨a, s, p.1, q.1⟩, q.2))
      | [] => none)
  | _ => none

/-- Decoder for Documents. -/
def decDoc : List Nat → Option (Doc × List Nat)
  | a :: c :: n :: r =>
    (decListOf decChange n r).bind (fun p => match p.2 with
      | m :: r2 => (decListOf decChange m r2).map (fun q => (⟨a, c, p.1, q.1⟩, q.2))
      | [] => none)
  | _ => none

/-- Modelled from the spec: load reconstructs a Document from serialized
bytes, failing on malformed input (spec section 6, CorruptHistory). -/
def loadDoc (bs : List Nat) : Option Doc :=
  (decDoc bs).bind (fun p => if p.2 = [] then some p.1 else none)

/-- Conflict list stored at a map key of a materialized node: every surviving
concurrent value, highest OpId first. -/
def conflictsAt (m : MNode) (k : String) : Option (List (OpId × MNode)) :=
  match m with
  | MNode.mapN es => es.lookup k
  | _ => none

/-- Default read value of a map key: the head of the conflict list, the
surviving write with the highest OpId. -/
def defaultRead (m : MNode) (k : String) : Option MNode :=
  (conflictsAt m k).bind (fun cl => cl.head?.map Prod.snd)

/-- Visible list stored under a map key, when the default value there is a
sequence object. -/
def listAt (m : MNode) (k : String) : Option (List MNode) :=
  (defaultRead m k).bind (fun n => match n with
    | MNode.listN l => some l
    | _ => none)

/-- Modelled from the spec: the plain sum of all increment deltas for one
counter object over a causal history (spec section 4.5). -/
def rawDeltaSum (H : List Change) (o : ObjId) : Int :=
  ((H.dedup.flatMap Change.ops).filterMap (rawIncDelta o)).sum

/-- Scenario: replica writing value a to key k under actor 1. -/
def c5DocA (a : Int) : Doc :=
  commitTx (forkDoc (initDoc 0) 1) [Edit.eSetKey ObjId.root "k" (Val.intV a)]

/-- Scenario: replica writing value b to the same key k under actor 2. -/
def c5DocB (b : Int) : Doc :=
  commitTx (forkDoc (initDoc 0) 2) [Edit.eSetKey ObjId.root "k" (Val.intV b)]

/-- Scenario: a committed list holding 1, 2, 3, 4, 5 under the key riea. -/
def spliceDoc1 : Doc :=
  commitTx (initDoc 1)
    [Edit.eSetKey ObjId.root "riea" Val.newList,
     Edit.eSplice (ObjId.node ⟨1, 1⟩) 0 0
       [Val.intV 1, Val.intV 2, Val.intV 3, Val.intV 4, Val.intV 5]]

/-- Scenario: the same list after assigning 1, 2, 34 to the range from
index 0 to index 1. -/
def spliceDoc2 : Doc :=
  commitTx spliceDoc1
    [Edit.eSplice (ObjId.node ⟨1, 1⟩) 0 1 [Val.intV 1, Val.intV 2, Val.intV 34]]

/-- Scenario: a document owning a counter created with initial value 123. -/
def ctrDoc0 : Doc :=
  commitTx (initDoc 1) [Edit.eSetKey ObjId.root "counter" (Val.newCounter 123)]

/-- Scenario: a fork incrementing the counter by 100 under actor 2. -/
def ctrDocA : Doc :=
  commitTx (forkDoc ctrDoc0 2) [Edit.eIncr (ObjId.node ⟨1, 1⟩) 100]

/-- Scenario: a fork incrementing the counter by 10 under actor 3. -/
def ctrDocB : Doc :=
  commitTx (forkDoc ctrDoc0 3) [Edit.eIncr (ObjId.node ⟨1, 1⟩) 10]

/-- Scenario: a first Change with no dependencies. -/
def c6C1 : Change := ⟨1, 1, [], [RawOp.setKey ObjId.root "x" (Val.intV 1)]⟩

/-- Scenario: a second Change depending on the first by hash. -/
def c6C2 : Change :=
  ⟨1, 2, [hashChange c6C1], [RawOp.setKey ObjId.root "y" (Val.intV 2)]⟩

/-- Scenario: a document holding two committed Changes, the first of which is
replayed in the idempotence witness. -/
def c2Doc : Doc :=
  commitTx (commitTx (initDoc 1) [Edit.eSetKey ObjId.root "a" (Val.intV 1)])
    [Edit.eSetKey ObjId.root "b" (Val.intV 2)]

/-- The first Change committed into c2Doc. -/
def c2Chg : Change := ⟨1, 1, [], [RawOp.setKey ObjId.root "a" (Val.intV 1)]⟩

/-- Embedded from src/automerge/__init__.py: the values the wrapper's dump
traverses — primitive scalars, plain dicts and lists, Mapping and Sequence
Documents carrying their visible entries, Counters carrying the integer
their get method returns, and Texts carrying their string form. -/
inductive PyVal
  | pyInt (n : Int)
  | pyStr (s : String)
  | pyBool (b : Bool)
  | pyNone
  | pyDict (es : List (String × PyVal))
  | pyList (vs : List PyVal)
  | pyDocMap (es : List (String × PyVal))
  | pyDocSeq (vs : List PyVal)
  | pyCounter (n : Int)
  | pyText (s : String)

mutual

/-- Embedded from src/automerge/__init__.py, dump: a Mapping document becomes
a dict of its converted entries, any other document becomes a list of its
converted iterated values; the wrapper only calls dump on Documents, so other
values are returned unchanged. -/
def dump : PyVal → PyVal
  | PyVal.pyDocMap es => PyVal.pyDict (dumpEntries es)
  | PyVal.pyDocSeq vs => PyVal.pyList (dumpSeq vs)
  | v => v

/-- Embedded from src/automerge/__init__.py, the loop body of dump: Document
values recurse through dump, a Counter value becomes the integer of its get
method, a Text value becomes its string form, anything else is unchanged. -/
def convOne : PyVal → PyVal
  | PyVal.pyDocMap es => PyVal.pyDict (dumpEntries es)
  | PyVal.pyDocSeq vs => PyVal.pyList (dumpSeq vs)
  | PyVal.pyCounter n => PyVal.pyInt n
  | PyVal.pyText s => PyVal.pyStr s
  | v => v

/-- Entry conversion of dump over a Mapping document's entries. -/
def dumpEntries : List (String × PyVal) → List (String × PyVal)
  | [] => []
  | (k, v) :: es => (k, convOne v) :: dumpEntries es

/-- Value conversion of dump over a Sequence document's iterated values. -/
def dumpSeq : List PyVal → List PyVal
  | [] => []
  | v :: vs => convOne v :: dumpSeq vs

end

mutual

/-- A value is plain when it is built from primitives, dicts and lists only:
no Document, Counter, or Text instance occurs in it. -/
def plainB : PyVal → Bool
  | PyVal.pyDict es => plainEntriesB es
  | PyVal.pyList vs => plainListB vs
  | PyVal.pyDocMap _ => false
  | PyVal.pyDocSeq _ => false
  | PyVal.pyCounter _ => false
  | PyVal.pyText _ => false
  | _ => true

/-- Plainness over dict entries. -/
def plainEntriesB : List (String × PyVal) → Bool
  | [] => true
  | (_, v) :: es => plainB v && plainEntriesB es

/-- Plainness over list items. -/
def plainListB : List PyVal → Bool
  | [] => true
  | v :: vs => plainB v && plainListB vs

end

mutual

/-- A Document whose entries recursively yield only primitive scalars,
nested Documents, Counters, or Texts. -/
def wfDocB : PyVal → Bool
  | PyVal.pyDocMap es => wfEntriesB es
  | PyVal.pyDocSeq vs => wfListB vs
  | _ => false

/-- An admissible entry value of such a Document. -/
def wfValB : PyVal → Bool
  | PyVal.pyInt _ => true
  | PyVal.pyStr _ => true
  | PyVal.pyBool _ => true
  | PyVal.pyNone => true
  | PyVal.pyDocMap es => wfEntriesB es
  | PyVal.pyDocSeq vs => wfListB vs
  | PyVal.pyCounter _ => true
  | PyVal.pyText _ => true
  | PyVal.pyDict _ => false
  | PyVal.pyList _ => false

/-- Admissibility over entry lists. -/
def wfEntriesB : List (String × PyVal) → Bool
  | [] => true
  | (_, v) :: es => wfValB v && wfEntriesB es

/-- Admissibility over item lists. -/
def wfListB : List PyVal → Bool
  | [] => true
  | v :: vs => wfValB v && wfListB vs

end

/-- Modelled from the spec, invariant (a) of section 3: a history is valid
when its OpIds are globally unique. -/
def ValidHist (H : List Change) : Prop :=
  ((taggedOps H).map TOp.id).Nodup

instance (H : List Change) : Decidable (ValidHist H) := by
  unfold ValidHist; exact inferInstance

/-- A Document is settled when every buffered Change still has an unmet
dependency, the invariant the admission loop maintains. -/
def Settled (d : Doc) : Prop :=
  ∀ b ∈ d.buffer, depsMetB d.hist b = false

instance (d : Doc) : Decidable (Settled d) := by
  unfold Settled; exact inferInstance

theorem opIdLe_total (i j : OpId) : opIdLe i j ∨ opIdLe j i := by
  unfold opIdLe; omega

theorem opIdLe_trans {i j k : OpId} (h₁ : opIdLe i j) (h₂ : opIdLe j k) :
    opIdLe i k := by
  unfold opIdLe at *; omega

theorem opIdLe_antisymm {i j : OpId} (h₁ : opIdLe i j) (h₂ : opIdLe j i) :
    i = j := by
  obtain ⟨c₁, a₁⟩ := i
  obtain ⟨c₂, a₂⟩ := j
  simp only [opIdLe, OpId.mk.injEq] at *
  omega

instance : IsTotal TOp tle := ⟨fun a b => opIdLe_total a.id b.id⟩

instance : IsTrans TOp tle := ⟨fun _ _ _ h₁ h₂ => opIdLe_trans h₁ h₂⟩

instance : IsAntisymm TOp tlt :=
  ⟨fun _ _ h₁ h₂ => absurd (opIdLe_antisymm h₁.1 h₂.1) h₁.2⟩

/-- Sorted lists of tagged operations with globally unique OpIds are uniquely
determined by their underlying multiset. -/
theorem canon_sorted_eq {l₁ l₂ : List TOp} (hp : l₁.Perm l₂)
    (hs₁ : List.Sorted tle l₁) (hs₂ : List.Sorted tle l₂)
    (hn : (l₁.map TOp.id).Nodup) : l₁ = l₂ := by
  have hn₂ : (l₂.map TOp.id).Nodup := (hp.map TOp.id).nodup_iff.mp hn
  have hstrict : ∀ {l : List TOp}, List.Sorted tle l →
      (l.map TOp.id).Nodup → l.Pairwise tlt := by
    intro l hs hnd
    have hnd' : l.Pairwise (fun a b => a.id ≠ b.id) := List.pairwise_map.mp hnd
    exact (List.Pairwise.and hs hnd').imp (fun h => ⟨h.1, h.2⟩)
  exact List.eq_of_perm_of_sorted hp (hstrict hs₁ hn) (hstrict hs₂ hn₂)

theorem canonKeys_perm {l₁ l₂ : List Nat} (h : l₁.Perm l₂) :
    canonKeys l₁ = canonKeys l₂ := by
  have s₁ : List.Sorted (α := Nat) (· ≤ ·) (canonKeys l₁) :=
    List.sorted_insertionSort _ _
  have s₂ : List.Sorted (α := Nat) (· ≤ ·) (canonKeys l₂) :=
    List.sorted_insertionSort _ _
  have hp : (canonKeys l₁).Perm (canonKeys l₂) :=
    (List.perm_insertionSort _ _).trans
      (h.dedup.trans (List.perm_insertionSort _ _).symm)
  exact List.eq_of_perm_of_sorted hp s₁ s₂

theorem depClosure_perm {D₁ D₂ : List Change} (hD : D₁.Perm D₂) :
    ∀ (f : Nat) {hs₁ hs₂ : List Nat}, hs₁.Perm hs₂ →
    (depClosure D₁ f hs₁).Perm (depClosure D₂ f hs₂) := by
  intro f
  induction f with
  | zero => intro _ _ _; simp [depClosure]
  | succ f ih =>
    intro hs₁ hs₂ hh
    simp only [depClosure]
    have hfil : (D₁.filter (fun c => decide (hashChange c ∈ hs₁))).Perm
        (D₂.filter (fun c => decide (hashChange c ∈ hs₂))) := by
      rw [List.filter_congr
        (fun c _ => decide_eq_decide.mpr hh.mem_iff : ∀ c ∈ D₁, _)]
      exact hD.filter _
    exact hfil.append (ih (hfil.flatMap_right Change.deps))

theorem changePastKeys_perm {D₁ D₂ : List Change} (hD : D₁.Perm D₂)
    (c : Change) : (changePastKeys D₁ c).Perm (changePastKeys D₂ c) := by
  unfold changePastKeys
  rw [hD.length_eq]
  exact (depClosure_perm hD _ (List.Perm.refl _)).flatMap_right _

theorem changeTOps_congr {D₁ D₂ : List Change} (hD : D₁.Perm D₂)
    (c : Change) : changeTOps D₁ c = changeTOps D₂ c := by
  unfold changeTOps
  refine List.map_congr_left (fun j _ => ?_)
  have : canonKeys (changePastKeys D₁ c ++
        (List.range j).map (fun k => OpId.key ⟨c.startSeq + k, c.actor⟩)) =
      canonKeys (changePastKeys D₂ c ++
        (List.range j).map (fun k => OpId.key ⟨c.startSeq + k, c.actor⟩)) :=
    canonKeys_perm ((changePastKeys_perm hD c).append_right _)
  rw [this]

theorem taggedOps_of_dedup_perm {H₁ H₂ : List Change}
    (h : H₁.dedup.Perm H₂.dedup) : (taggedOps H₁).Perm (taggedOps H₂) := by
  unfold taggedOps
  have hfun : changeTOps H₁.dedup = changeTOps H₂.dedup :=
    funext (changeTOps_congr h)
  rw [hfun]
  exact h.flatMap_right _

theorem canonOps_perm_of_dedup {H₁ H₂ : List Change}
    (h : H₁.dedup.Perm H₂.dedup) : (canonOps H₁).Perm (canonOps H₂) :=
  (List.perm_insertionSort _ _).trans
    ((taggedOps_of_dedup_perm h).trans (List.perm_insertionSort _ _).symm)

theorem canonOps_eq_of_dedup_perm {H₁ H₂ : List Change}
    (h : H₁.dedup.Perm H₂.dedup) (hv : ValidHist H₁) :
    canonOps H₁ = canonOps H₂ := by
  refine canon_sorted_eq (canonOps_perm_of_dedup h)
    (List.sorted_insertionSort _ _) (List.sorted_insertionSort _ _) ?_
  have : (canonOps H₁).Perm (taggedOps H₁) := List.perm_insertionSort _ _
  exact ((this.map TOp.id).nodup_iff).mpr hv

theorem treeOfHist_eq_of_dedup_perm {H₁ H₂ : List Change}
    (h : H₁.dedup.Perm H₂.dedup) (hv : ValidHist H₁) :
    treeOfHist H₁ = treeOfHist H₂ := by
  unfold treeOfHist
  rw [canonOps_eq_of_dedup_perm h hv]

theorem validHist_of_dedup_perm {H₁ H₂ : List Change}
    (h : H₁.dedup.Perm H₂.dedup) (hv : ValidHist H₂) : ValidHist H₁ :=
  (((taggedOps_of_dedup_perm h).map TOp.id).nodup_iff).mpr hv

theorem dedup_append_self (H : List Change) :
    ((H ++ H).dedup).Perm H.dedup :=
  List.toFinset_eq_iff_perm_dedup.mp (List.toFinset.ext (fun x => by simp))

theorem dedup_append_mem {H : List Change} {c : Change} (hc : c ∈ H) :
    ((H ++ [c]).dedup).Perm H.dedup :=
  List.toFinset_eq_iff_perm_dedup.mp (List.toFinset.ext (fun x => by
    simp only [List.mem_append, List.mem_singleton]
    exact ⟨fun h => h.elim id (fun e => e ▸ hc), Or.inl⟩))

/-- C1: merge is commutative in tree content: for Documents with valid causal
histories, merging in either direction yields identical visible trees; in
particular two forks of one Document, edited independently and merged in
either direction, produce identical final visible trees. -/
theorem merge_comm_tree (A B : Doc) (hv : ValidHist (A.hist ++ B.hist)) :
    visibleTree (mergeDoc A B) = visibleTree (mergeDoc B A) :=
  treeOfHist_eq_of_dedup_perm (List.perm_append_comm).dedup hv

/-- Witness for C1: two concretely edited forks of an empty Document. -/
theorem merge_comm_tree_witness :
    ValidHist ((c5DocA 10).hist ++ (c5DocB 20).hist) ∧
    visibleTree (mergeDoc (c5DocA 10) (c5DocB 20)) =
      visibleTree (mergeDoc (c5DocB 20) (c5DocA 10)) :=
  ⟨by decide, merge_comm_tree (c5DocA 10) (c5DocB 20) (by decide)⟩

theorem admitLoop_succ (f : Nat) (H pend : List Change) :
    admitLoop (f + 1) H pend =
      if (pend.filter (depsMetB H)).isEmpty then (H, pend)
      else admitLoop f (H ++ pend.filter (depsMetB H))
        (pend.filter (fun c => ! depsMetB H c)) := rfl

theorem depsMetB_append_mem {H : List Change} {c : Change} (hc : c ∈ H)
    (b : Change) : depsMetB (H ++ [c]) b = depsMetB H b := by
  unfold depsMetB
  have hfun : (fun h => (H ++ [c]).any (fun c' => decide (hashChange c' = h)))
      = (fun h => H.any (fun c' => decide (hashChange c' = h))) := by
    funext h
    rw [List.any_append]
    simp only [List.any_cons, List.any_nil, Bool.or_false]
    cases hpc : (decide (hashChange c = h)) with
    | false => simp [hpc]
    | true =>
      have hh : H.any (fun c' => decide (hashChange c' = h)) = true :=
        List.any_eq_true.mpr ⟨c, hc, hpc⟩
      simp [hh, hpc]
  rw [hfun]

theorem applyChanges_replay (A : Doc) (c : Change) (hc : c ∈ A.hist)
    (hm : depsMetB A.hist c = true) (hs : Settled A) :
    applyChanges A [c] = { A with hist := A.hist ++ [c] } := by
  have hbuf₁ : A.buffer.filter (depsMetB A.hist) = [] :=
    List.filter_eq_nil_iff.mpr (fun b hb => by simp [hs b hb])
  have hready₁ : (A.buffer ++ [c]).filter (depsMetB A.hist) = [c] := by
    rw [List.filter_append, hbuf₁]
    simp [hm]
  have hrest₁ : (A.buffer ++ [c]).filter (fun x => ! depsMetB A.hist x)
      = A.buffer := by
    rw [List.filter_append]
    have h₁ : A.buffer.filter (fun x => ! depsMetB A.hist x) = A.buffer :=
      List.filter_eq_self.mpr (fun b hb => by simp [hs b hb])
    simp [h₁, hm]
  have hready₂ : A.buffer.filter (depsMetB (A.hist ++ [c])) = [] := by
    rw [List.filter_congr (fun b _ => depsMetB_append_mem hc b)]
    exact hbuf₁
  have hlen : (A.buffer ++ [c]).length + 1 = A.buffer.length + 1 + 1 := by
    simp
  have hloop : admitLoop ((A.buffer ++ [c]).length + 1) A.hist
      (A.buffer ++ [c]) = (A.hist ++ [c], A.buffer) := by
    rw [hlen, admitLoop_succ, hready₁, hrest₁]
    simp only [List.isEmpty_cons, Bool.false_eq_true, if_false]
    rw [admitLoop_succ, hready₂]
    simp
  show ({ A with
    hist := (admitLoop ((A.buffer ++ [c]).length + 1) A.hist (A.buffer ++ [c])).1,
    buffer := (admitLoop ((A.buffer ++ [c]).length + 1) A.hist (A.buffer ++ [c])).2 } : Doc) = _
  rw [hloop]

/-- C2: merge is idempotent: merging a Document with itself, and replaying a
Change already in its history, leave the visible tree and the causal history
set unchanged (and the buffer untouched). -/
theorem merge_idem (A : Doc) (c : Change) (hv : ValidHist A.hist)
    (hc : c ∈ A.hist) (hm : depsMetB A.hist c = true) (hs : Settled A) :
    visibleTree (mergeDoc A A) = visibleTree A ∧
    (mergeDoc A A).hist.toFinset = A.hist.toFinset ∧
    visibleTree (applyChanges A [c]) = visibleTree A ∧
    (applyChanges A [c]).hist.toFinset = A.hist.toFinset ∧
    (applyChanges A [c]).buffer = A.buffer := by
  have hrep := applyChanges_replay A c hc hm hs
  refine ⟨?_, ?_, ?_, ?_, ?_⟩
  · exact treeOfHist_eq_of_dedup_perm (dedup_append_self A.hist)
      (validHist_of_dedup_perm (dedup_append_self A.hist) hv)
  · show (A.hist ++ A.hist).toFinset = A.hist.toFinset
    simp [List.toFinset_append]
  · rw [hrep]
    exact treeOfHist_eq_of_dedup_perm (dedup_append_mem hc)
      (validHist_of_dedup_perm (dedup_append_mem hc) hv)
  · rw [hrep]
    show (A.hist ++ [c]).toFinset = A.hist.toFinset
    simp only [List.toFinset_append]
    have hsub : ([c] : List Change).toFinset ⊆ A.hist.toFinset := by
      simp [List.mem_toFinset.mpr hc]
    exact Finset.union_eq_left.mpr hsub
  · rw [hrep]

/-- Witness for C2: a Document with two committed Changes, replaying its
first Change. -/
theorem merge_idem_witness :
    (ValidHist c2Doc.hist ∧ c2Chg ∈ c2Doc.hist ∧
      depsMetB c2Doc.hist c2Chg = true ∧ Settled c2Doc) ∧
    visibleTree (mergeDoc c2Doc c2Doc) = visibleTree c2Doc ∧
    visibleTree (applyChanges c2Doc [c2Chg]) = visibleTree c2Doc :=
  ⟨⟨by decide, by decide, by decide, by decide⟩,
    (merge_idem c2Doc c2Chg (by decide) (by decide) (by decide) (by decide)).1,
    (merge_idem c2Doc c2Chg (by decide) (by decide) (by decide) (by decide)).2.2.1⟩

/-- C6: out-of-order delivery: when the second Change depends on the first,
applying them as second-then-first yields the same resulting Document as
first-then-second; a Change with unmet dependencies is buffered, not an
error, and is admitted once the dependency arrives. -/
theorem out_of_order_delivery (d : Doc) (c1 c2 : Change)
    (hb : d.buffer = [])
    (hdep : hashChange c1 ∈ c2.deps)
    (h1 : depsMetB d.hist c1 = true)
    (h2 : depsMetB d.hist c2 = false)
    (h3 : depsMetB (d.hist ++ [c1]) c2 = true) :
    applyChanges d [c2, c1] = applyChanges d [c1, c2] ∧
    (applyChanges d [c2]).hist = d.hist ∧
    (applyChanges d [c2]).buffer = [c2] ∧
    applyChanges (applyChanges d [c2]) [c1] = applyChanges d [c1, c2] := by
  obtain ⟨da, dc, dh, db⟩ := d
  simp only at hb h1 h2 h3
  subst hb
  have hstep : ∀ pend : List Change,
      pend.filter (depsMetB dh) = [c1] →
      pend.filter (fun c => ! depsMetB dh c) = [c2] →
      admitLoop 3 dh pend = ((dh ++ [c1]) ++ [c2], []) := by
    intro pend hf hr
    rw [admitLoop_succ, hf, hr]
    simp only [List.isEmpty_cons, Bool.false_eq_true, if_false]
    rw [admitLoop_succ]
    have hf₂ : [c2].filter (depsMetB (dh ++ [c1])) = [c2] := by simp [h3]
    have hr₂ : [c2].filter (fun c => ! depsMetB (dh ++ [c1]) c) = [] := by
      simp [h3]
    rw [hf₂, hr₂]
    simp only [List.isEmpty_cons, Bool.false_eq_true, if_false]
    rw [admitLoop_succ]
    simp
  have hloopA : admitLoop 3 dh [c2, c1] = ((dh ++ [c1]) ++ [c2], []) :=
    hstep [c2, c1] (by simp [List.filter, h1, h2]) (by simp [List.filter, h1, h2])
  have hloopB : admitLoop 3 dh [c1, c2] = ((dh ++ [c1]) ++ [c2], []) :=
    hstep [c1, c2] (by simp [List.filter, h1, h2]) (by simp [List.filter, h1, h2])
  have hloopC : admitLoop 2 dh [c2] = (dh, [c2]) := by
    rw [admitLoop_succ]
    have hf : [c2].filter (depsMetB dh) = [] := by simp [h2]
    rw [hf]
    simp
  have hA : applyChanges ⟨da, dc, dh, []⟩ [c2, c1] =
      ⟨da, dc, (dh ++ [c1]) ++ [c2], []⟩ := by
    show Doc.mk da dc
      (admitLoop ((([] : List Change) ++ [c2, c1]).length + 1) dh (([] : List Change) ++ [c2, c1])).1
      (admitLoop ((([] : List Change) ++ [c2, c1]).length + 1) dh (([] : List Change) ++ [c2, c1])).2 = _
    simp only [List.nil_append, List.length_cons, List.length_nil]
    rw [hloopA]
  have hB : applyChanges ⟨da, dc, dh, []⟩ [c1, c2] =
      ⟨da, dc, (dh ++ [c1]) ++ [c2], []⟩ := by
    show Doc.mk da dc
      (admitLoop ((([] : List Change) ++ [c1, c2]).length + 1) dh (([] : List Change) ++ [c1, c2])).1
      (admitLoop ((([] : List Change) ++ [c1, c2]).length + 1) dh (([] : List Change) ++ [c1, c2])).2 = _
    simp only [List.nil_append, List.length_cons, List.length_nil]
    rw [hloopB]
  have hC : applyChanges ⟨da, dc, dh, []⟩ [c2] = ⟨da, dc, dh, [c2]⟩ := by
    show Doc.mk da dc
      (admitLoop ((([] : List Change) ++ [c2]).length + 1) dh (([] : List Change) ++ [c2])).1
      (admitLoop ((([] : List Change) ++ [c2]).length + 1) dh (([] : List Change) ++ [c2])).2 = _
    simp only [List.nil_append, List.length_cons, List.length_nil]
    rw [hloopC]
  have hD : applyChanges ⟨da, dc, dh, [c2]⟩ [c1] =
      ⟨da, dc, (dh ++ [c1]) ++ [c2], []⟩ := by
    show Doc.mk da dc
      (admitLoop (([c2] ++ [c1]).length + 1) dh ([c2] ++ [c1])).1
      (admitLoop (([c2] ++ [c1]).length + 1) dh ([c2] ++ [c1])).2 = _
    simp only [List.cons_append, List.nil_append, List.length_cons,
      List.length_nil]
    rw [hloopA]
  refine ⟨?_, ?_, ?_, ?_⟩
  · rw [hA, hB]
  · rw [hC]
  · rw [hC]
  · rw [hC, hD, hB]

/-- Witness for C6: a dependent pair of Changes delivered to an empty
Document in both orders. -/
theorem out_of_order_delivery_witness :
    (hashChange c6C1 ∈ c6C2.deps ∧
      depsMetB (initDoc 5).hist c6C1 = true ∧
      depsMetB (initDoc 5).hist c6C2 = false ∧
      depsMetB ((initDoc 5).hist ++ [c6C1]) c6C2 = true) ∧
    applyChanges (initDoc 5) [c6C2, c6C1] = applyChanges (initDoc 5) [c6C1, c6C2] :=
  ⟨⟨by decide, by decide, by decide, by decide⟩,
    (out_of_order_delivery (initDoc 5) c6C1 c6C2 (by decide) (by decide)
      (by decide) (by decide) (by decide)).1⟩

theorem map_getD_range {α : Type} (l : List α) (d : α) :
    (List.range l.length).map (fun j => l.getD j d) = l := by
  induction l with
  | nil => rfl
  | cons a l ih =>
    rw [List.length_cons, List.range_succ_eq_map]
    simp only [List.map_cons, List.map_map]
    have hfun : ((fun j => (a :: l).getD j d) ∘ Nat.succ)
        = (fun j => l.getD j d) := by
      funext j; rfl
    rw [hfun, ih]
    rfl

theorem changeTOps_op_map (D : List Change) (c : Change) :
    (changeTOps D c).map TOp.op = c.ops := by
  unfold changeTOps
  rw [List.map_map]
  exact map_getD_range c.ops _

theorem filterMap_incDelta_changeTOps (o : ObjId) (D : List Change)
    (c : Change) :
    (changeTOps D c).filterMap (incDelta o) = c.ops.filterMap (rawIncDelta o) := by
  conv_rhs => rw [← changeTOps_op_map D c]
  rw [List.filterMap_map]
  rfl

theorem flatMap_filterMap_incDelta (o : ObjId) (D L : List Change) :
    (L.flatMap (changeTOps D)).filterMap (incDelta o)
      = (L.flatMap Change.ops).filterMap (rawIncDelta o) := by
  induction L with
  | nil => rfl
  | cons c L ih =>
    simp only [List.flatMap_cons, List.filterMap_append, ih,
      filterMap_incDelta_changeTOps]

theorem counterVal_canonOps (H : List Change) (o : ObjId) (i : Int) :
    counterVal (canonOps H) o i = i + rawDeltaSum H o := by
  unfold counterVal rawDeltaSum
  congr 1
  have hperm : ((canonOps H).filterMap (incDelta o)).Perm
      ((taggedOps H).filterMap (incDelta o)) :=
    (List.perm_insertionSort _ _).filterMap _
  rw [hperm.sum_eq]
  unfold taggedOps
  rw [flatMap_filterMap_incDelta]

/-- C7: counter merge is delta summation: a counter materializes to its
initial value plus the sum of all increment deltas in the causal history,
the sum is the same in either merge order, and the concrete two-replica
scenario (123, +100, +10) reads 233 after merging in both directions. -/
theorem counter_delta_summation :
    (∀ (H : List Change) (o : ObjId) (i : Int),
      counterVal (canonOps H) o i = i + rawDeltaSum H o) ∧
    (∀ (A B : Doc) (o : ObjId) (i : Int),
      counterVal (canonOps (mergeDoc A B).hist) o i
        = counterVal (canonOps (mergeDoc B A).hist) o i) ∧
    defaultRead (visibleTree (mergeDoc ctrDocA ctrDocB)) "counter"
      = some (MNode.counterN 233) ∧
    defaultRead (visibleTree (mergeDoc ctrDocB ctrDocA)) "counter"
      = some (MNode.counterN 233) := by
  refine ⟨counterVal_canonOps, fun A B o i => ?_, by rfl, by rfl⟩
  rw [counterVal_canonOps, counterVal_canonOps]
  congr 1
  unfold rawDeltaSum
  have hp : ((mergeDoc A B).hist.dedup).Perm ((mergeDoc B A).hist.dedup) :=
    (List.perm_append_comm).dedup
  exact ((hp.flatMap_right Change.ops).filterMap _).sum_eq

theorem decInt_enc (n : Int) (r : List Nat) : decInt (encInt n ++ r) = some (n, r) := by
  cases n <;> rfl

theorem decChars_enc (cs : List Char) (r : List Nat) :
    decChars cs.length (cs.map Char.toNat ++ r) = some (cs, r) := by
  induction cs with
  | nil => rfl
  | cons c cs ih => simp [decChars, ih, Char.ofNat_toNat]

theorem decStr_enc (s : String) (r : List Nat) :
    decStr (encStr s ++ r) = some (s, r) := by
  obtain ⟨cs⟩ := s
  show decStr (cs.length :: (cs.map Char.toNat ++ r)) = _
  simp [decStr, decChars_enc]

theorem decVal_enc (v : Val) (r : List Nat) :
    decVal (encVal v ++ r) = some (v, r) := by
  cases v with
  | intV n => simp [encVal, decVal, List.cons_append, decInt_enc]
  | strV s => simp [encVal, decVal, List.cons_append, decStr_enc]
  | boolV b => cases b <;> rfl
  | nullV => rfl
  | newMap => rfl
  | newList => rfl
  | newCounter i => simp [encVal, decVal, List.cons_append, decInt_enc]

theorem decObj_enc (o : ObjId) (r : List Nat) :
    decObj (encObj o ++ r) = some (o, r) := by
  cases o <;> rfl

theorem decRef_enc (x : Option OpId) (r : List Nat) :
    decRef (encRef x ++ r) = some (x, r) := by
  cases x <;> rfl

theorem decOp_enc (op : RawOp) (r : List Nat) :
    decOp (encOp op ++ r) = some (op, r) := by
  cases op with
  | setKey o k v =>
    simp [encOp, decOp, List.cons_append, List.append_assoc, decObj_enc,
      decStr_enc, decVal_enc]
  | delKey o k =>
    simp [encOp, decOp, List.cons_append, List.append_assoc, decObj_enc,
      decStr_enc]
  | insertAfter o x v =>
    simp [encOp, decOp, List.cons_append, List.append_assoc, decObj_enc,
      decRef_enc, decVal_enc]
  | delElem o e =>
    simp [encOp, decOp, List.cons_append, List.append_assoc, decObj_enc]
  | incr o d =>
    simp [encOp, decOp, List.cons_append, List.append_assoc, decObj_enc,
      decInt_enc]

theorem decNats_enc (l r : List Nat) : decNats l.length (l ++ r) = some (l, r) := by
  induction l with
  | nil => rfl
  | cons x l ih => simp [decNats, ih]

theorem decListOf_enc {α : Type} (enc : α → List Nat)
    (dec : List Nat → Option (α × List Nat))
    (hdec : ∀ a r, dec (enc a ++ r) = some (a, r)) :
    ∀ l r, decListOf dec l.length (l.flatMap enc ++ r) = some (l, r) := by
  intro l
  induction l with
  | nil => intro r; rfl
  | cons a l ih =>
    intro r
    show decListOf dec (l.length + 1) ((enc a ++ l.flatMap enc) ++ r) = _
    rw [List.append_assoc]
    simp [decListOf, hdec, ih]

theorem decChange_enc (c : Change) (r : List Nat) :
    decChange (encChange c ++ r) = some (c, r) := by
  obtain ⟨a, s, deps, ops⟩ := c
  show decChange (a :: s :: (((deps.length :: deps.flatMap (fun n => [n])) ++
    (ops.length :: ops.flatMap encOp)) ++ r)) = _
  have hsingle : deps.flatMap (fun n => [n]) = deps := by
    induction deps with
    | nil => rfl
    | cons x l ih => simp [ih]
  simp only [List.cons_append, List.append_assoc, hsingle]
  show (decNats deps.length (deps ++ (ops.length :: ops.flatMap encOp ++ r))).bind _ = _
  rw [decNats_enc]
  simp only [Option.some_bind, List.cons_append]
  show (decListOf decOp ops.length (ops.flatMap encOp ++ r)).map _ = _
  rw [decListOf_enc encOp decOp decOp_enc]
  rfl

theorem decDoc_enc (d : Doc) (r : List Nat) :
    decDoc (encDoc d ++ r) = some (d, r) := by
  obtain ⟨a, c, hist, buf⟩ := d
  show decDoc (a :: c :: (((hist.length :: hist.flatMap encChange) ++
    (buf.length :: buf.flatMap encChange)) ++ r)) = _
  simp only [List.cons_append, List.append_assoc]
  show (decListOf decChange hist.length
    (hist.flatMap encChange ++ (buf.length :: buf.flatMap encChange ++ r))).bind _ = _
  rw [decListOf_enc encChange decChange decChange_enc]
  simp only [Option.some_bind, List.cons_append]
  show (decListOf decChange buf.length (buf.flatMap encChange ++ r)).map _ = _
  rw [decListOf_enc encChange decChange decChange_enc]
  rfl

/-- C3: serialization round trip: loading the saved bytes of a Document
yields the very same Document, hence the same visible tree under any read and
identical results as a merge input or under subsequent edits. -/
theorem save_load_roundtrip (d : Doc) :
    loadDoc (saveDoc d) = some d ∧
    (loadDoc (saveDoc d)).map visibleTree = some (visibleTree d) ∧
    (∀ B : Doc, (loadDoc (saveDoc d)).map (fun x => mergeDoc x B)
      = some (mergeDoc d B)) ∧
    (∀ es : List Edit, (loadDoc (saveDoc d)).map (fun x => commitTx x es)
      = some (commitTx d es)) := by
  have h : loadDoc (saveDoc d) = some d := by
    unfold loadDoc saveDoc
    have henc : encDoc d = encDoc d ++ [] := by simp
    rw [henc, decDoc_enc]
    rfl
  exact ⟨h, by rw [h]; rfl, fun B => by rw [h]; rfl, fun es => by rw [h]; rfl⟩

/-- C4: splice semantics: on the committed list 1, 2, 3, 4, 5, assigning the
values 1, 2, 34 to the half-open index range from 0 to 1 yields the visible
list 1, 2, 34, 2, 3, 4, 5; in general a splice appends the tombstoning of
every live element in the range followed by inserts of the new values
anchored after the element immediately preceding the start position (at the
list head when the start is 0). -/
theorem splice_semantics :
    listAt (visibleTree spliceDoc1) "riea"
      = some [MNode.leafI 1, MNode.leafI 2, MNode.leafI 3, MNode.leafI 4,
        MNode.leafI 5] ∧
    listAt (visibleTree spliceDoc2) "riea"
      = some [MNode.leafI 1, MNode.leafI 2, MNode.leafI 34, MNode.leafI 2,
        MNode.leafI 3, MNode.leafI 4, MNode.leafI 5] ∧
    (∀ (st : TxState) (o : ObjId) (start stop : Nat) (vals : List Val),
      objKind (txOps st) o = some ObjKind.listK →
      applyEdit st (Edit.eSplice o start stop vals) = Except.ok { st with
        ops := st.ops ++
          ((((visibleElemIds (txOps st) o).drop start).take (stop - start)).map
              (RawOp.delElem o) ++
            insChain o st.base.actor
              (txCtr st +
                (((visibleElemIds (txOps st) o).drop start).take
                  (stop - start)).length)
              (if start = 0 then none
               else ((visibleElemIds (txOps st) o).take start).getLast?)
              vals) }) := by
  refine ⟨by rfl, by rfl, fun st o start stop vals hk => ?_⟩
  cases start with
  | zero => simp [applyEdit, hk, spliceOps]
  | succ s => simp [applyEdit, hk, spliceOps]

/-- Witness for C4: the splice of the test scenario produces exactly one
tombstone for the element at index 0 followed by three anchored inserts. -/
theorem splice_semantics_witness :
    objKind (txOps (txInit spliceDoc1)) (ObjId.node ⟨1, 1⟩)
      = some ObjKind.listK ∧
    applyEdit (txInit spliceDoc1)
        (Edit.eSplice (ObjId.node ⟨1, 1⟩) 0 1
          [Val.intV 1, Val.intV 2, Val.intV 34])
      = Except.ok ⟨spliceDoc1, 7,
          [RawOp.delElem (ObjId.node ⟨1, 1⟩) ⟨2, 1⟩,
           RawOp.insertAfter (ObjId.node ⟨1, 1⟩) none (Val.intV 1),
           RawOp.insertAfter (ObjId.node ⟨1, 1⟩) (some ⟨8, 1⟩) (Val.intV 2),
           RawOp.insertAfter (ObjId.node ⟨1, 1⟩) (some ⟨9, 1⟩) (Val.intV 34)]⟩ :=
  ⟨by decide,
    (splice_semantics.2.2 (txInit spliceDoc1) (ObjId.node ⟨1, 1⟩) 0 1
      [Val.intV 1, Val.intV 2, Val.intV 34] (by decide)).trans (by rfl)⟩

set_option maxHeartbeats 1000000 in
/-- C5: conflict preservation: two replicas concurrently setting the same
map key to different values merge, in either direction, into a conflict list
retaining both values, and the default read value is the one written by the
highest OpId. -/
theorem conflict_preservation (a b : Int) (hab : a ≠ b) :
    conflictsAt (visibleTree (mergeDoc (c5DocA a) (c5DocB b))) "k"
      = some [(⟨1, 2⟩, MNode.leafI b), (⟨1, 1⟩, MNode.leafI a)] ∧
    defaultRead (visibleTree (mergeDoc (c5DocA a) (c5DocB b))) "k"
      = some (MNode.leafI b) ∧
    conflictsAt (visibleTree (mergeDoc (c5DocB b) (c5DocA a))) "k"
      = some [(⟨1, 2⟩, MNode.leafI b), (⟨1, 1⟩, MNode.leafI a)] ∧
    opIdLe ⟨1, 1⟩ ⟨1, 2⟩ ∧ (⟨1, 1⟩ : OpId) ≠ ⟨1, 2⟩ := by
  have hhA : (mergeDoc (c5DocA a) (c5DocB b)).hist
      = [⟨1, 1, [], [RawOp.setKey ObjId.root "k" (Val.intV a)]⟩,
         ⟨2, 1, [], [RawOp.setKey ObjId.root "k" (Val.intV b)]⟩] := rfl
  have hhB : (mergeDoc (c5DocB b) (c5DocA a)).hist
      = [⟨2, 1, [], [RawOp.setKey ObjId.root "k" (Val.intV b)]⟩,
         ⟨1, 1, [], [RawOp.setKey ObjId.root "k" (Val.intV a)]⟩] := rfl
  have hcA : canonOps
        [⟨1, 1, [], [RawOp.setKey ObjId.root "k" (Val.intV a)]⟩,
         ⟨2, 1, [], [RawOp.setKey ObjId.root "k" (Val.intV b)]⟩]
      = [⟨⟨1, 1⟩, RawOp.setKey ObjId.root "k" (Val.intV a), []⟩,
         ⟨⟨1, 2⟩, RawOp.setKey ObjId.root "k" (Val.intV b), []⟩] := rfl
  have hcB : canonOps
        [⟨2, 1, [], [RawOp.setKey ObjId.root "k" (Val.intV b)]⟩,
         ⟨1, 1, [], [RawOp.setKey ObjId.root "k" (Val.intV a)]⟩]
      = [⟨⟨1, 1⟩, RawOp.setKey ObjId.root "k" (Val.intV a), []⟩,
         ⟨⟨1, 2⟩, RawOp.setKey ObjId.root "k" (Val.intV b), []⟩] := rfl
  refine ⟨?_, ?_, ?_, by decide, by decide⟩
  · unfold visibleTree treeOfHist
    rw [hhA, hcA]
    rfl
  · unfold visibleTree treeOfHist
    rw [hhA, hcA]
    rfl
  · unfold visibleTree treeOfHist
    rw [hhB, hcB]
    rfl

/-- Witness for C5: the two replicas write 10 and 20; after the merge the
default read is 20, the concurrent write with the highest OpId. -/
theorem conflict_preservation_witness :
    ((10 : Int) ≠ 20) ∧
    defaultRead (visibleTree (mergeDoc (c5DocA 10) (c5DocB 20))) "k"
      = some (MNode.leafI 20) :=
  ⟨by decide, (conflict_preservation 10 20 (by decide)).2.1⟩

/-- C8: transaction atomicity: a failure inside the edit block discards all
buffered operations, leaving the Document exactly as before; a commit is
all-or-nothing, never a partial application. -/
theorem transaction_atomicity :
    (∀ (d : Doc) (edits : List Edit) (e : TxErr),
      runEdits (txInit d) edits = Except.error e → commitTx d edits = d) ∧
    (∀ (d : Doc) (edits : List Edit),
      commitTx d edits = d ∨
      ∃ st, runEdits (txInit d) edits = Except.ok st ∧
        commitTx d edits =
          { d with ctr := txCtr st, hist := d.hist ++ [txChange st] }) := by
  constructor
  · intro d edits e h
    unfold commitTx
    rw [h]
  · intro d edits
    cases hr : runEdits (txInit d) edits with
    | ok st => exact Or.inr ⟨st, rfl, by unfold commitTx; rw [hr]⟩
    | error e => exact Or.inl (by unfold commitTx; rw [hr])

/-- Witness for C8: a transaction whose first edit succeeds and whose second
edit addresses the root map as a counter fails and leaves the Document
unchanged. -/
theorem transaction_atomicity_witness :
    runEdits (txInit (initDoc 3))
        [Edit.eSetKey ObjId.root "x" (Val.intV 1), Edit.eIncr ObjId.root 5]
      = Except.error TxErr.invalidTarget ∧
    commitTx (initDoc 3)
        [Edit.eSetKey ObjId.root "x" (Val.intV 1), Edit.eIncr ObjId.root 5]
      = initDoc 3 :=
  ⟨by rfl,
    transaction_atomicity.1 (initDoc 3)
      [Edit.eSetKey ObjId.root "x" (Val.intV 1), Edit.eIncr ObjId.root 5]
      TxErr.invalidTarget (by rfl)⟩

/-- C9: out-of-range deletion is clamped: a splice whose deletion range
reaches beyond the live length behaves exactly like the splice clamped to
the live length, and it succeeds rather than raising an error. -/
theorem splice_clamped (st : TxState) (o : ObjId) (start stop : Nat)
    (vals : List Val)
    (hk : objKind (txOps st) o = some ObjKind.listK)
    (hstop : (visibleElemIds (txOps st) o).length ≤ stop) :
    applyEdit st (Edit.eSplice o start stop vals)
      = applyEdit st
          (Edit.eSplice o start (visibleElemIds (txOps st) o).length vals) ∧
    ∃ st', applyEdit st (Edit.eSplice o start stop vals) = Except.ok st' := by
  have hdels : ((visibleElemIds (txOps st) o).drop start).take (stop - start)
      = ((visibleElemIds (txOps st) o).drop start).take
          ((visibleElemIds (txOps st) o).length - start) := by
    rw [List.take_of_length_le, List.take_of_length_le]
    · rw [List.length_drop]
    · rw [List.length_drop]
      exact Nat.sub_le_sub_right hstop start
  have hops : spliceOps o st.base.actor (txCtr st)
        (visibleElemIds (txOps st) o) start stop vals
      = spliceOps o st.base.actor (txCtr st)
        (visibleElemIds (txOps st) o) start
        (visibleElemIds (txOps st) o).length vals := by
    unfold spliceOps
    rw [hdels]
  have happ : ∀ sp : Nat, applyEdit st (Edit.eSplice o start sp vals)
      = Except.ok { st with ops := st.ops ++
          (spliceOps o st.base.actor (txCtr st)
            (visibleElemIds (txOps st) o) start sp vals) } := by
    intro sp
    simp [applyEdit, hk]
  refine ⟨?_, ⟨_, happ stop⟩⟩
  rw [happ stop, happ ((visibleElemIds (txOps st) o).length), hops]

/-- Witness for C9: splicing far beyond the live length of the committed
seven-element list is the same edit as splicing at the live length and
succeeds. -/
theorem splice_clamped_witness :
    (objKind (txOps (txInit spliceDoc2)) (ObjId.node ⟨1, 1⟩)
        = some ObjKind.listK ∧
      (visibleElemIds (txOps (txInit spliceDoc2)) (ObjId.node ⟨1, 1⟩)).length
        ≤ 20000) ∧
    applyEdit (txInit spliceDoc2)
        (Edit.eSplice (ObjId.node ⟨1, 1⟩) 10000 20000 [Val.intV 99])
      = applyEdit (txInit spliceDoc2)
          (Edit.eSplice (ObjId.node ⟨1, 1⟩) 10000
            (visibleElemIds (txOps (txInit spliceDoc2))
              (ObjId.node ⟨1, 1⟩)).length [Val.intV 99]) :=
  ⟨⟨by decide, by decide⟩,
    (splice_clamped (txInit spliceDoc2) (ObjId.node ⟨1, 1⟩) 10000 20000
      [Val.intV 99] (by decide) (by decide)).1⟩

theorem conv_plain_strong :
    ∀ n : Nat,
      (∀ v : PyVal, sizeOf v ≤ n → wfValB v = true →
        plainB (convOne v) = true) ∧
      (∀ es : List (String × PyVal), sizeOf es ≤ n → wfEntriesB es = true →
        plainEntriesB (dumpEntries es) = true) ∧
      (∀ vs : List PyVal, sizeOf vs ≤ n → wfListB vs = true →
        plainListB (dumpSeq vs) = true) := by
  intro n
  induction n using Nat.strong_induction_on with
  | _ n ih =>
    refine ⟨?_, ?_, ?_⟩
    · intro v hsz hwf
      cases v with
      | pyInt m => rfl
      | pyStr s => rfl
      | pyBool b => rfl
      | pyNone => rfl
      | pyDict es => exact absurd hwf (by simp [wfValB])
      | pyList vs => exact absurd hwf (by simp [wfValB])
      | pyCounter m => rfl
      | pyText s => rfl
      | pyDocMap es =>
        have hlt : sizeOf es < n := by
          have : sizeOf es < sizeOf (PyVal.pyDocMap es) := by simp <;> omega
          omega
        exact (ih (sizeOf es) hlt).2.1 es le_rfl hwf
      | pyDocSeq vs =>
        have hlt : sizeOf vs < n := by
          have : sizeOf vs < sizeOf (PyVal.pyDocSeq vs) := by simp <;> omega
          omega
        exact (ih (sizeOf vs) hlt).2.2 vs le_rfl hwf
    · intro es hsz hwf
      cases es with
      | nil => rfl
      | cons p es =>
        obtain ⟨k, v⟩ := p
        have hv : wfValB v = true ∧ wfEntriesB es = true := by
          have : (wfValB v && wfEntriesB es) = true := hwf
          exact Bool.and_eq_true_iff.mp this
        have hszv : sizeOf v < n := by
          have : sizeOf v < sizeOf ((k, v) :: es) := by simp <;> omega
          omega
        have hszes : sizeOf es < n := by
          have : sizeOf es < sizeOf ((k, v) :: es) := by simp <;> omega
          omega
        show (plainB (convOne v) && plainEntriesB (dumpEntries es)) = true
        rw [(ih (sizeOf v) hszv).1 v le_rfl hv.1,
          (ih (sizeOf es) hszes).2.1 es le_rfl hv.2]
        rfl
    · intro vs hsz hwf
      cases vs with
      | nil => rfl
      | cons v vs =>
        have hv : wfValB v = true ∧ wfListB vs = true := by
          have : (wfValB v && wfListB vs) = true := hwf
          exact Bool.and_eq_true_iff.mp this
        have hszv : sizeOf v < n := by
          have : sizeOf v < sizeOf (v :: vs) := by simp <;> omega
          omega
        have hszvs : sizeOf vs < n := by
          have : sizeOf vs < sizeOf (v :: vs) := by simp <;> omega
          omega
        show (plainB (convOne v) && plainListB (dumpSeq vs)) = true
        rw [(ih (sizeOf v) hszv).1 v le_rfl hv.1,
          (ih (sizeOf vs) hszvs).2.2 vs le_rfl hv.2]
        rfl

/-- C10: for every Document whose entries recursively yield only primitive
scalars, nested Documents, Counters, or Texts, dump returns a value built
solely from plain dicts, lists, strings, and primitives: a Mapping document
becomes a dict of its converted entries, any other document a list of its
converted iterated values in order, a nested Document converts recursively,
a Counter becomes the integer of its get method, a Text its string form, and
no Document, Counter, or Text instance appears in the result. -/
theorem dump_plain (v : PyVal) (hv : wfDocB v = true) :
    plainB (dump v) = true ∧
    (∀ es, dump (PyVal.pyDocMap es) = PyVal.pyDict (dumpEntries es)) ∧
    (∀ vs, dump (PyVal.pyDocSeq vs) = PyVal.pyList (dumpSeq vs)) ∧
    (∀ k w es, dumpEntries ((k, w) :: es) = (k, convOne w) :: dumpEntries es) ∧
    (∀ w ws, dumpSeq (w :: ws) = convOne w :: dumpSeq ws) ∧
    (∀ m, convOne (PyVal.pyCounter m) = PyVal.pyInt m) ∧
    (∀ s, convOne (PyVal.pyText s) = PyVal.pyStr s) ∧
    (∀ w, wfDocB w = true → convOne w = dump w) := by
  refine ⟨?_, fun es => rfl, fun vs => rfl, fun k w es => rfl, fun w ws => rfl,
    fun m => rfl, fun s => rfl, ?_⟩
  · cases v with
    | pyDocMap es => exact (conv_plain_strong (sizeOf es)).2.1 es le_rfl hv
    | pyDocSeq vs => exact (conv_plain_strong (sizeOf vs)).2.2 vs le_rfl hv
    | pyInt m => exact absurd hv (by simp [wfDocB])
    | pyStr s => exact absurd hv (by simp [wfDocB])
    | pyBool b => exact absurd hv (by simp [wfDocB])
    | pyNone => exact absurd hv (by simp [wfDocB])
    | pyDict es => exact absurd hv (by simp [wfDocB])
    | pyList vs => exact absurd hv (by simp [wfDocB])
    | pyCounter m => exact absurd hv (by simp [wfDocB])
    | pyText s => exact absurd hv (by simp [wfDocB])
  · intro w hw
    cases w with
    | pyDocMap es => rfl
    | pyDocSeq vs => rfl
    | pyInt m => exact absurd hw (by simp [wfDocB])
    | pyStr s => exact absurd hw (by simp [wfDocB])
    | pyBool b => exact absurd hw (by simp [wfDocB])
    | pyNone => exact absurd hw (by simp [wfDocB])
    | pyDict es => exact absurd hw (by simp [wfDocB])
    | pyList vs => exact absurd hw (by simp [wfDocB])
    | pyCounter m => exact absurd hw (by simp [wfDocB])
    | pyText s => exact absurd hw (by simp [wfDocB])

/-- Witness for C10: a Mapping document holding a Sequence document of a
Counter, a Text and a primitive dumps to a plain value. -/
theorem dump_plain_witness :
    wfDocB (PyVal.pyDocMap [("hello", PyVal.pyDocSeq
      [PyVal.pyCounter 3, PyVal.pyText "hi", PyVal.pyInt 1])]) = true ∧
    plainB (dump (PyVal.pyDocMap [("hello", PyVal.pyDocSeq
      [PyVal.pyCounter 3, PyVal.pyText "hi", PyVal.pyInt 1])])) = true :=
  ⟨by decide,
    (dump_plain (PyVal.pyDocMap [("hello", PyVal.pyDocSeq
      [PyVal.pyCounter 3, PyVal.pyText "hi", PyVal.pyInt 1])]) (by decide)).1⟩

end AM
